import Mathlib

/-!
Verification of the Ewens–Pitman Attraction (EPA) partition sampler
(`epa.rs`): a shallow embedding of the square similarity matrix, the
permutation construction strategies, the EPA parameter bundle, and the
sequential sampling algorithm, together with theorems checking the
natural-language specification against the code.

`f64` values are modelled as rationals (`ℚ`): every claim below is about
which arithmetic expression the code computes, not about rounding.
Randomness is modelled as explicit streams of draws (`Nat → Nat` for
integer-range draws, `Nat → ℚ` for the uniform draws consumed by
weighted selection), advanced by one index per draw, as described in the
specification's concurrency section.

The `Clustering` (crate `clust`) and `Permutation` (crate `perm`)
collaborators are not part of the sources; where a definition stands in
for them it is modelled from the specification and marked as such.
-/

namespace Epa

/-- The `SquareMatrixBorrower` of `epa.rs`: a read-only view of an
`n_items × n_items` matrix stored column-major (element `(i, j)` at
offset `n_items * j + i`). -/
structure SquareMatrixBorrower where
  data : List ℚ
  n_items : Nat
deriving Repr, DecidableEq

/-- Element access `similarity[(i, j)]`: column-major offset
`n_items * j + i` (the `Index` impl in `epa.rs`). -/
def SquareMatrixBorrower.get (s : SquareMatrixBorrower) (i j : Nat) : ℚ :=
  s.data.getD (s.n_items * j + i) 0

/-- `sum_of_row_subset(row, columns)` of `epa.rs`: running sum of
`similarity[(row, j)]` over the given column indices. -/
def SquareMatrixBorrower.sum_of_row_subset
    (s : SquareMatrixBorrower) (row : Nat) (columns : List Nat) : ℚ :=
  columns.foldl (fun sum j => sum + s.get row j) 0

/-- `sum_of_triangle` of `epa.rs`: sum of strictly lower-triangular
entries (`i > j`). -/
def SquareMatrixBorrower.sum_of_triangle (s : SquareMatrixBorrower) : ℚ :=
  ((List.range s.n_items).map (fun i =>
    ((List.range i).map (fun j => s.get i j)).sum)).sum

/-- The owning `SquareMatrix` of `epa.rs`. -/
structure SquareMatrix where
  data : List ℚ
  n_items : Nat
deriving Repr, DecidableEq

/-- `SquareMatrix::zeros`. -/
def SquareMatrix.zeros (n_items : Nat) : SquareMatrix :=
  ⟨List.replicate (n_items * n_items) 0, n_items⟩

/-- `SquareMatrix::ones`. -/
def SquareMatrix.ones (n_items : Nat) : SquareMatrix :=
  ⟨List.replicate (n_items * n_items) 1, n_items⟩

/-- The `while i < n2` loop of `SquareMatrix::identity`: starting from
offset `i`, set every `(n_items + 1)`-th storage cell to `1.0`. -/
def identityLoop (n : Nat) (data : List ℚ) (i : Nat) : List ℚ :=
  if i < n * n then identityLoop n (data.set i 1) (i + (n + 1)) else data
termination_by n * n - i
decreasing_by omega

/-- `SquareMatrix::identity`. -/
def SquareMatrix.identity (n_items : Nat) : SquareMatrix :=
  ⟨identityLoop n_items (List.replicate (n_items * n_items) 0) 0, n_items⟩

/-- `SquareMatrix::view`. -/
def SquareMatrix.view (m : SquareMatrix) : SquareMatrixBorrower :=
  ⟨m.data, m.n_items⟩

theorem identityLoop_length (n : Nat) :
    ∀ (m i : Nat), n * n - i ≤ m →
      ∀ (data : List ℚ), (identityLoop n data i).length = data.length := by
  intro m
  induction m with
  | zero =>
    intro i hi data
    rw [identityLoop, if_neg (by omega)]
  | succ m ih =>
    intro i hi data
    rw [identityLoop]
    split
    · rename_i h
      rw [ih (i + (n + 1)) (by omega)]
      exact List.length_set ..
    · rfl

theorem identityLoop_getD (n : Nat) :
    ∀ (m i : Nat), n * n - i ≤ m →
      ∀ (data : List ℚ) (k : Nat), k < data.length →
        (identityLoop n data i).getD k 0 =
          if i ≤ k ∧ k < n * n ∧ (n + 1) ∣ (k - i) then 1 else data.getD k 0 := by
  intro m
  induction m with
  | zero =>
    intro i hi data k hk
    rw [identityLoop, if_neg (by omega), if_neg (by omega)]
  | succ m ih =>
    intro i hi data k hk
    rw [identityLoop]
    split
    · rename_i hlt
      rw [ih (i + (n + 1)) (by omega) (data.set i 1) k (by simpa using hk)]
      by_cases hik : k = i
      · subst hik
        have h1 : ¬ (k + (n + 1) ≤ k ∧ k < n * n ∧ (n + 1) ∣ (k - (k + (n + 1)))) := by
          omega
        rw [if_neg h1, if_pos ⟨le_refl k, hlt, by simp⟩]
        rw [List.getD_eq_getElem?_getD, List.getElem?_set_self (by omega), Option.getD_some]
      · have hset : (data.set i 1).getD k 0 = data.getD k 0 := by
          rw [List.getD_eq_getElem?_getD, List.getElem?_set_ne (by omega),
            ← List.getD_eq_getElem?_getD]
        rw [hset]
        have hiff : (i + (n + 1) ≤ k ∧ k < n * n ∧ (n + 1) ∣ (k - (i + (n + 1)))) ↔
            (i ≤ k ∧ k < n * n ∧ (n + 1) ∣ (k - i)) := by
          constructor
          · rintro ⟨h1, h2, h3⟩
            obtain ⟨c, hc⟩ := h3
            refine ⟨by omega, h2, ⟨c + 1, ?_⟩⟩
            rw [Nat.mul_succ]
            omega
          · rintro ⟨h1, h2, h3⟩
            obtain ⟨c, hc⟩ := h3
            rcases c with _ | c
            · rw [Nat.mul_zero] at hc
              omega
            · rw [Nat.mul_succ] at hc
              exact ⟨by omega, h2, ⟨c, by omega⟩⟩
        simp only [hiff]
    · rename_i hge
      rw [if_neg (by omega)]

theorem getD_replicate_of_lt {a : ℚ} {n k : Nat} (h : k < n) :
    (List.replicate n a).getD k 0 = a := by
  rw [List.getD_eq_getElem?_getD, List.getElem?_replicate, if_pos h, Option.getD_some]

/-- C10: for every `n ≥ 1`, `identity(n)` has storage of length `n*n`
with `1.0` exactly at the column-major offsets `0, n+1, 2(n+1), …`
(multiples of `n+1`, i.e. the diagonal entries) and `0.0` elsewhere;
`zeros(n)` and `ones(n)` fill every entry of their length-`n*n` storage
with `0.0` and `1.0` respectively. -/
theorem matrix_factories_spec (n : Nat) (hn : 1 ≤ n) :
    ((SquareMatrix.identity n).data.length = n * n ∧
      ∀ k < n * n, (SquareMatrix.identity n).data.getD k 0 =
        if (n + 1) ∣ k then 1 else 0) ∧
    ((SquareMatrix.zeros n).data.length = n * n ∧
      ∀ k < n * n, (SquareMatrix.zeros n).data.getD k 0 = 0) ∧
    ((SquareMatrix.ones n).data.length = n * n ∧
      ∀ k < n * n, (SquareMatrix.ones n).data.getD k 0 = 1) := by
  refine ⟨⟨?_, ?_⟩, ⟨by simp [SquareMatrix.zeros], ?_⟩, ⟨by simp [SquareMatrix.ones], ?_⟩⟩
  · rw [SquareMatrix.identity]
    simp only
    rw [identityLoop_length n (n * n) 0 (by omega)]
    simp
  · intro k hk
    have hlen : k < (List.replicate (n * n) (0 : ℚ)).length := by simpa using hk
    have h := identityLoop_getD n (n * n) 0 (by omega) (List.replicate (n * n) 0) k hlen
    rw [SquareMatrix.identity]
    simp only
    rw [h, getD_replicate_of_lt hk]
    by_cases hd : (n + 1) ∣ k
    · rw [if_pos ⟨Nat.zero_le k, hk, by simpa using hd⟩, if_pos hd]
    · rw [if_neg (fun hc => hd (by simpa using hc.2.2)), if_neg hd]
  · intro k hk
    exact getD_replicate_of_lt hk
  · intro k hk
    exact getD_replicate_of_lt hk

/-- Modelled from the spec: the `Permutation` type of crate `perm` (not
under `src/`): an ordering of item indices. Its invariant (a bijective
ordering of `[0, n_items)`) is stated as `Permutation.valid` below and
assumed where the spec assumes it. -/
structure Permutation where
  items : List Nat
deriving Repr, DecidableEq

/-- Modelled from the spec: `Permutation::n_items`. -/
def Permutation.n_items (p : Permutation) : Nat := p.items.length

/-- Modelled from the spec: `Permutation::get`, so `p.get i` is `π(i)`. -/
def Permutation.get (p : Permutation) (i : Nat) : Nat := p.items.getD i 0

/-- Modelled from the spec: `Permutation::slice_until(i)` is the prefix
`π(0), …, π(i-1)` of the visit order. -/
def Permutation.slice_until (p : Permutation) (i : Nat) : List Nat := p.items.take i

/-- The spec's Permutation invariant: the sequence contains each index
in `[0, n)` exactly once. -/
def Permutation.valid (p : Permutation) (n : Nat) : Prop :=
  p.items.Perm (List.range n)

instance (p : Permutation) (n : Nat) : Decidable (p.valid n) :=
  inferInstanceAs (Decidable (p.items.Perm (List.range n)))

/-- The `EpaParameters` bundle of `epa.rs`. -/
structure EpaParameters where
  similarity : SquareMatrixBorrower
  permutation : Permutation
  mass : ℚ
  discount : ℚ
deriving Repr, DecidableEq

/-- `EpaParameters::new` of `epa.rs`: `None` when the similarity matrix
and the permutation disagree on the number of items. -/
def EpaParameters.new (similarity : SquareMatrixBorrower) (permutation : Permutation)
    (mass discount : ℚ) : Option EpaParameters :=
  if similarity.n_items ≠ permutation.n_items then none
  else some ⟨similarity, permutation, mass, discount⟩

/-- C4: `EpaParameters::new` returns `None` iff the similarity matrix's
`n_items` differs from the permutation's `n_items`; with equal sizes it
returns the bundle of the given similarity, permutation, mass and
discount. -/
theorem epa_parameters_new_spec (similarity : SquareMatrixBorrower)
    (permutation : Permutation) (mass discount : ℚ) :
    (EpaParameters.new similarity permutation mass discount = none ↔
      similarity.n_items ≠ permutation.n_items) ∧
    (similarity.n_items = permutation.n_items →
      EpaParameters.new similarity permutation mass discount =
        some ⟨similarity, permutation, mass, discount⟩) := by
  constructor
  · constructor
    · intro h hne
      rw [EpaParameters.new, if_neg (fun hc => hc hne)] at h
      exact Option.some_ne_none _ h
    · intro h
      rw [EpaParameters.new, if_pos h]
  · intro h
    rw [EpaParameters.new, if_neg (fun hc => hc h)]

/-- Witness for `epa_parameters_new_spec`: both branches at a concrete
matching and a concrete mismatching size. -/
theorem epa_parameters_new_spec_witness :
    (EpaParameters.new ⟨[0], 1⟩ ⟨[0]⟩ 1 0 = some ⟨⟨[0], 1⟩, ⟨[0]⟩, 1, 0⟩) ∧
    (EpaParameters.new ⟨[0], 1⟩ ⟨[0, 1]⟩ 1 0 = none) := by
  constructor
  · exact (epa_parameters_new_spec ⟨[0], 1⟩ ⟨[0]⟩ 1 0).2 (by decide)
  · exact (epa_parameters_new_spec ⟨[0], 1⟩ ⟨[0, 1]⟩ 1 0).1.mpr (by decide)

/-- Modelled from the spec: the Partition/Clustering collaborator
(crate `clust`, not under `src/`), exposed for testing as a mapping from
item index to cluster label; position `j` holds the label of item `j`,
or `none` while the item is unallocated. Labels are canonical: clusters
are labelled `0, 1, 2, …` in creation order. -/
abbrev Clustering := List (Option Nat)

namespace Clustering

/-- Modelled from the spec: `Clustering::unallocated(n)`: an empty
partition over `n` items with 0 clusters. -/
def unallocated (n_items : Nat) : Clustering := List.replicate n_items none

/-- Modelled from the spec: `Clustering::n_clusters`: the number of
currently nonempty clusters (distinct labels in use). -/
def n_clusters (c : Clustering) : Nat := (c.filterMap id).dedup.length

/-- Modelled from the spec: `Clustering::size_of(label)`: number of
items currently in the cluster. -/
def size_of (c : Clustering) (label : Nat) : Nat :=
  c.countP (fun x => x == some label)

/-- Modelled from the spec: `Clustering::items_of(label)`: the current
membership of the cluster. -/
def items_of (c : Clustering) (label : Nat) : List Nat :=
  (List.range c.length).filter (fun j => c.getD j none == some label)

/-- Modelled from the spec:
`Clustering::available_labels_for_allocation_with_target`: every
currently nonempty label plus exactly one fresh new-cluster label, in a
stable deterministic order. With canonical labels the nonempty labels
are `0, …, n_clusters - 1` and the fresh label is `n_clusters`. -/
def available_labels (c : Clustering) : List Nat :=
  List.range (c.n_clusters + 1)

/-- Modelled from the spec: `Clustering::allocate(item, k)`: commit
`item` to the cluster identified by the candidate at position `k` of the
enumerated candidate order. -/
def allocate (c : Clustering) (item : Nat) (k : Nat) : Clustering :=
  c.set item (some (c.available_labels.getD k 0))

end Clustering

/-- The scan of the weighted-selection primitive: walking the weight
list, return the position whose cumulative-weight interval contains the
target, falling back to the final position. -/
def selectLoop (target : ℚ) : ℚ → Nat → List ℚ → Nat
  | _, k, [] => k
  | acc, k, w :: rest =>
    if rest = [] then k
    else if target < acc + w then k
    else selectLoop target (acc + w) (k + 1) rest

/-- Modelled from the spec: `Clustering::select` (§4.4): given weights
and a uniform draw `u ∈ [0,1)`, select one position with probability
proportional to its weight (position of the cumulative interval
containing `u` times the total weight). -/
def selectWeighted (weights : List ℚ) (u : ℚ) : Nat :=
  selectLoop (u * weights.foldl (· + ·) 0) 0 0 weights

/-- The `d2` computation of `sample` in `epa.rs`: fold over `1..n`
starting from `similarity[(π(n-1), π(0))]`, adding
`similarity[(π(i-1), π(i))]`, divided by `n`. -/
def d2 (p : EpaParameters) : ℚ :=
  (((List.range' 1 (p.similarity.n_items - 1)).foldl
      (fun x i => x + p.similarity.get (p.permutation.get (i - 1)) (p.permutation.get i))
      (p.similarity.get (p.permutation.get (p.similarity.n_items - 1))
        (p.permutation.get 0)))) / (p.similarity.n_items : ℚ)

/-- The per-candidate weight of one allocation step of `sample` in
`epa.rs`: an empty (new-cluster) candidate weighs
`(mass + discount·qt) · jump_density`; a nonempty cluster weighs
`kt · sum_of_row_subset(π(i), items_of(label))`, with `qt` the number of
occupied clusters before the step. -/
def stepWeight (p : EpaParameters) (i : Nat) (c : Clustering)
    (jump_density kt : ℚ) (label : Nat) : ℚ :=
  if c.size_of label = 0 then
    (p.mass + p.discount * (c.n_clusters : ℚ)) * jump_density
  else
    kt * p.similarity.sum_of_row_subset (p.permutation.get i) (c.items_of label)

/-- The `kt` of one allocation step of `sample` in `epa.rs`:
`(i − discount·qt) / S` with `S` the similarity of `π(i)` to every item
placed so far (`slice_until(i)`). -/
def ktValue (p : EpaParameters) (c : Clustering) (i : Nat) : ℚ :=
  ((i : ℚ) - p.discount * (c.n_clusters : ℚ)) /
    p.similarity.sum_of_row_subset (p.permutation.get i) (p.permutation.slice_until i)

/-- One allocation step of `sample` in `epa.rs`, with `kt` exposed as an
argument: compute the step's `numerator`, `jump_density` and candidate
weights, draw one candidate by weighted selection, and allocate
`π(i)` to it. -/
def sampleStepKt (p : EpaParameters) (d2v : ℚ) (c : Clustering) (i : Nat)
    (kt : ℚ) (u : ℚ) : Clustering :=
  let ii := p.permutation.get i
  let numerator := if i = 0 then d2v
    else p.similarity.get ii (p.permutation.get (i - 1))
  let jump_density := d2v / numerator
  let weights := c.available_labels.map (stepWeight p i c jump_density kt)
  c.allocate ii (selectWeighted weights (u))

/-- One allocation step of `sample` in `epa.rs`, with `kt` as computed
there. -/
def sampleStep (p : EpaParameters) (d2v : ℚ) (c : Clustering) (i : Nat)
    (u : ℚ) : Clustering :=
  sampleStepKt p d2v c i (ktValue p c i) u

/-- The state of `sample`'s sequential-allocation loop after the first
`i` steps, consuming one uniform draw of `rng` per step. -/
def sampleUpTo (p : EpaParameters) (rng : Nat → ℚ) (i : Nat) : Clustering :=
  (List.range i).foldl (fun c k => sampleStep p (d2 p) c k (rng k))
    (Clustering.unallocated p.similarity.n_items)

/-- `sample` of `epa.rs`: compute `d2`, then sequentially allocate the
items `π(0), …, π(n-1)`, and return the completed clustering. -/
def sample (p : EpaParameters) (rng : Nat → ℚ) : Clustering :=
  sampleUpTo p rng p.similarity.n_items

/-- Claim-side formulation of the sampler's global scale: the average of
the `n` adjacent-in-permutation-cycle similarities
`similarity[(π((k + n - 1) mod n), π(k))]` for `k = 0, …, n-1` (the term
for `k = 0` being `similarity[(π(n-1), π(0))]`). -/
def specCyclicAverage (p : EpaParameters) : ℚ :=
  (((List.range p.similarity.n_items).map (fun k =>
      p.similarity.get
        (p.permutation.get ((k + p.similarity.n_items - 1) % p.similarity.n_items))
        (p.permutation.get k))).sum) / (p.similarity.n_items : ℚ)

theorem foldl_add_map (g : Nat → ℚ) :
    ∀ (l : List Nat) (a : ℚ), l.foldl (fun x i => x + g i) a = a + (l.map g).sum := by
  intro l
  induction l with
  | nil => simp
  | cons b t ih =>
    intro a
    rw [List.foldl_cons, ih, List.map_cons, List.sum_cons]
    ring

theorem d2_eq_specCyclicAverage (p : EpaParameters)
    (hn : 0 < p.similarity.n_items) : d2 p = specCyclicAverage p := by
  rw [d2, specCyclicAverage]
  generalize hN : p.similarity.n_items = N at hn
  obtain ⟨m, rfl⟩ : ∃ m, N = m + 1 := ⟨N - 1, by omega⟩
  congr 1
  rw [foldl_add_map, List.range_succ_eq_map, List.map_cons, List.sum_cons,
    List.range'_eq_map_range, List.map_map, List.map_map]
  congr 1
  · congr 2
    have h0 : 0 + (m + 1) - 1 = m := by omega
    rw [h0, Nat.mod_eq_of_lt (by omega)]
    omega
  · congr 1
    apply List.map_congr_left
    intro k hk
    have hkm : k < m := List.mem_range.mp hk
    simp only [Function.comp_apply]
    have h1 : 1 + k - 1 = k := by omega
    have h2 : (Nat.succ k + (m + 1) - 1) % (m + 1) = k := by
      have : Nat.succ k + (m + 1) - 1 = k + (m + 1) := by omega
      rw [this, Nat.add_mod_right, Nat.mod_eq_of_lt (by omega)]
    rw [h1, h2, Nat.add_comm 1 k]

/-- C1: in `sample`, at every step `i` the weight given to a candidate
label whose cluster is currently empty (the new-cluster candidate) — for
any value of `kt` — equals `(mass + discount·qt) · jump_density`, where
`qt` counts the occupied clusters before the step,
`jump_density = d2 / numerator`, `numerator` is `d2` when `i = 0` and
`similarity[(π(i), π(i-1))]` otherwise, and `d2` is the sum of the `n`
cyclic adjacent similarities (starting from
`similarity[(π(n-1), π(0))]`) divided by `n`. -/
theorem sample_new_cluster_weight (p : EpaParameters) (c : Clustering) (i : Nat)
    (kt : ℚ) (label : Nat) (hn : 0 < p.similarity.n_items)
    (hempty : c.size_of label = 0) :
    stepWeight p i c
        (d2 p / (if i = 0 then d2 p
          else p.similarity.get (p.permutation.get i) (p.permutation.get (i - 1))))
        kt label
      = (p.mass + p.discount * (c.n_clusters : ℚ)) *
        (specCyclicAverage p /
          (if i = 0 then specCyclicAverage p
            else p.similarity.get (p.permutation.get i) (p.permutation.get (i - 1)))) := by
  rw [stepWeight, if_pos hempty, d2_eq_specCyclicAverage p hn]

/-- Witness for `sample_new_cluster_weight` at a concrete parameter set,
step and empty candidate. -/
theorem sample_new_cluster_weight_witness :
    0 < (⟨⟨List.replicate 9 1, 3⟩, ⟨[0, 1, 2]⟩, 1, 0⟩ :
        EpaParameters).similarity.n_items ∧
    (Clustering.unallocated 3).size_of 0 = 0 ∧
    stepWeight ⟨⟨List.replicate 9 1, 3⟩, ⟨[0, 1, 2]⟩, 1, 0⟩ 1
        (Clustering.unallocated 3)
        (d2 ⟨⟨List.replicate 9 1, 3⟩, ⟨[0, 1, 2]⟩, 1, 0⟩ /
          (if (1 : Nat) = 0 then d2 ⟨⟨List.replicate 9 1, 3⟩, ⟨[0, 1, 2]⟩, 1, 0⟩
            else (⟨⟨List.replicate 9 1, 3⟩, ⟨[0, 1, 2]⟩, 1, 0⟩ :
                EpaParameters).similarity.get
              ((⟨[0, 1, 2]⟩ : Permutation).get 1) ((⟨[0, 1, 2]⟩ : Permutation).get 0)))
        7 0
      = ((1 : ℚ) + 0 * ((Clustering.unallocated 3).n_clusters : ℚ)) *
        (specCyclicAverage ⟨⟨List.replicate 9 1, 3⟩, ⟨[0, 1, 2]⟩, 1, 0⟩ /
          (if (1 : Nat) = 0 then specCyclicAverage ⟨⟨List.replicate 9 1, 3⟩, ⟨[0, 1, 2]⟩, 1, 0⟩
            else (⟨⟨List.replicate 9 1, 3⟩, ⟨[0, 1, 2]⟩, 1, 0⟩ :
                EpaParameters).similarity.get
              ((⟨[0, 1, 2]⟩ : Permutation).get 1) ((⟨[0, 1, 2]⟩ : Permutation).get 0))) :=
  ⟨by decide, by decide,
    sample_new_cluster_weight ⟨⟨List.replicate 9 1, 3⟩, ⟨[0, 1, 2]⟩, 1, 0⟩
      (Clustering.unallocated 3) 1 7 0 (by decide) (by decide)⟩

theorem take_eq_map_range_getD (l : List Nat) (i : Nat) (hi : i ≤ l.length) :
    l.take i = (List.range i).map (fun k => l.getD k 0) := by
  apply List.ext_getElem
  · simp [Nat.min_eq_left hi]
  · intro k h1 h2
    simp only [List.getElem_take, List.getElem_map, List.getElem_range]
    rw [List.getD_eq_getElem]

/-- C2: in `sample`, at every step `i ≤ n` the weight given to a
candidate label whose cluster is currently nonempty equals
`kt · sum_of_row_subset(π(i), items_of(label))`, where
`kt = (i − discount·qt) / S`, `qt` counts the occupied clusters before
the step, and `S = sum_of_row_subset(π(i), [π(0), …, π(i-1)])`. -/
theorem sample_existing_cluster_weight (p : EpaParameters) (c : Clustering)
    (i : Nat) (label : Nat) (jump_density : ℚ)
    (hi : i ≤ p.permutation.n_items) (hne : 0 < c.size_of label) :
    stepWeight p i c jump_density (ktValue p c i) label
      = (((i : ℚ) - p.discount * (c.n_clusters : ℚ)) /
          p.similarity.sum_of_row_subset (p.permutation.get i)
            ((List.range i).map p.permutation.get)) *
        p.similarity.sum_of_row_subset (p.permutation.get i) (c.items_of label) := by
  rw [stepWeight, if_neg (by omega), ktValue, Permutation.slice_until,
    take_eq_map_range_getD p.permutation.items i hi]
  rfl

/-- Witness for `sample_existing_cluster_weight` at a concrete parameter
set, step and nonempty candidate. -/
theorem sample_existing_cluster_weight_witness :
    (1 : Nat) ≤ (⟨[0, 1, 2]⟩ : Permutation).n_items ∧
    0 < Clustering.size_of [some 0, none, none] 0 ∧
    stepWeight ⟨⟨List.replicate 9 1, 3⟩, ⟨[0, 1, 2]⟩, 1, 0⟩ 1
        [some 0, none, none] 5
        (ktValue ⟨⟨List.replicate 9 1, 3⟩, ⟨[0, 1, 2]⟩, 1, 0⟩ [some 0, none, none] 1) 0
      = (((1 : ℚ) - 0 * (Clustering.n_clusters [some 0, none, none] : ℚ)) /
          (⟨⟨List.replicate 9 1, 3⟩, ⟨[0, 1, 2]⟩, 1, 0⟩ :
              EpaParameters).similarity.sum_of_row_subset
            ((⟨[0, 1, 2]⟩ : Permutation).get 1)
            ((List.range 1).map (⟨[0, 1, 2]⟩ : Permutation).get)) *
        (⟨⟨List.replicate 9 1, 3⟩, ⟨[0, 1, 2]⟩, 1, 0⟩ :
            EpaParameters).similarity.sum_of_row_subset
          ((⟨[0, 1, 2]⟩ : Permutation).get 1)
          (Clustering.items_of [some 0, none, none] 0) :=
  ⟨by decide, by decide,
    sample_existing_cluster_weight ⟨⟨List.replicate 9 1, 3⟩, ⟨[0, 1, 2]⟩, 1, 0⟩
      [some 0, none, none] 1 0 5 (by decide) (by decide)⟩

theorem size_of_unallocated (n L : Nat) :
    (Clustering.unallocated n).size_of L = 0 := by
  rw [Clustering.size_of, Clustering.unallocated, List.countP_eq_zero]
  intro a ha
  rw [List.eq_of_mem_replicate ha]
  simp

theorem n_clusters_unallocated (n : Nat) :
    (Clustering.unallocated n).n_clusters = 0 := by
  rw [Clustering.n_clusters, Clustering.unallocated]
  induction n with
  | zero => rfl
  | succ m ih => rw [List.replicate_succ, List.filterMap_cons]; exact ih

theorem available_labels_unallocated (n : Nat) :
    (Clustering.unallocated n).available_labels = [0] := by
  rw [Clustering.available_labels, n_clusters_unallocated]
  rfl

/-- C8: at step `i = 0` of `sample`, the row-subset sum `S` over the
empty prefix is `0` (so `kt` is a division by zero there), but `kt`
never reaches any enumerated candidate's weight: the partition has zero
nonempty clusters, the candidate list is the single new-cluster label,
the step's outcome is the same for every value of `kt`, and item `π(0)`
is always placed in the new cluster. -/
theorem sample_step_zero_kt_unused (p : EpaParameters) (u kt₁ kt₂ : ℚ)
    (hn : 0 < p.similarity.n_items) :
    p.similarity.sum_of_row_subset (p.permutation.get 0)
        (p.permutation.slice_until 0) = 0 ∧
    (Clustering.unallocated p.similarity.n_items).n_clusters = 0 ∧
    (Clustering.unallocated p.similarity.n_items).available_labels = [0] ∧
    sampleStepKt p (d2 p) (Clustering.unallocated p.similarity.n_items) 0 kt₁ u =
      sampleStepKt p (d2 p) (Clustering.unallocated p.similarity.n_items) 0 kt₂ u ∧
    sampleStep p (d2 p) (Clustering.unallocated p.similarity.n_items) 0 u =
      (Clustering.unallocated p.similarity.n_items).set
        (p.permutation.get 0) (some 0) := by
  refine ⟨rfl, n_clusters_unallocated _, available_labels_unallocated _, ?_, ?_⟩
  · rw [sampleStepKt, sampleStepKt]
    simp only [available_labels_unallocated, List.map_cons, List.map_nil,
      stepWeight, size_of_unallocated, eq_self_iff_true, if_true]
  · rw [sampleStep, sampleStepKt]
    simp only [available_labels_unallocated, List.map_cons, List.map_nil,
      stepWeight, size_of_unallocated, eq_self_iff_true, if_true]
    rw [Clustering.allocate, available_labels_unallocated]
    rw [selectWeighted, selectLoop]
    simp

/-- Witness for `sample_step_zero_kt_unused` at a concrete parameter
set, draw, and two distinct `kt` values. -/
theorem sample_step_zero_kt_unused_witness :
    0 < (⟨⟨List.replicate 9 1, 3⟩, ⟨[0, 1, 2]⟩, 1, 0⟩ :
        EpaParameters).similarity.n_items ∧
    ((⟨⟨List.replicate 9 1, 3⟩, ⟨[0, 1, 2]⟩, 1, 0⟩ :
          EpaParameters).similarity.sum_of_row_subset
        ((⟨[0, 1, 2]⟩ : Permutation).get 0)
        ((⟨[0, 1, 2]⟩ : Permutation).slice_until 0) = 0 ∧
      Clustering.n_clusters (Clustering.unallocated 3) = 0 ∧
      Clustering.available_labels (Clustering.unallocated 3) = [0] ∧
      sampleStepKt ⟨⟨List.replicate 9 1, 3⟩, ⟨[0, 1, 2]⟩, 1, 0⟩
          (d2 ⟨⟨List.replicate 9 1, 3⟩, ⟨[0, 1, 2]⟩, 1, 0⟩)
          (Clustering.unallocated 3) 0 7 (1 / 2) =
        sampleStepKt ⟨⟨List.replicate 9 1, 3⟩, ⟨[0, 1, 2]⟩, 1, 0⟩
          (d2 ⟨⟨List.replicate 9 1, 3⟩, ⟨[0, 1, 2]⟩, 1, 0⟩)
          (Clustering.unallocated 3) 0 11 (1 / 2) ∧
      sampleStep ⟨⟨List.replicate 9 1, 3⟩, ⟨[0, 1, 2]⟩, 1, 0⟩
          (d2 ⟨⟨List.replicate 9 1, 3⟩, ⟨[0, 1, 2]⟩, 1, 0⟩)
          (Clustering.unallocated 3) 0 (1 / 2) =
        (Clustering.unallocated 3).set ((⟨[0, 1, 2]⟩ : Permutation).get 0) (some 0)) := by
  constructor
  · decide
  · exact sample_step_zero_kt_unused ⟨⟨List.replicate 9 1, 3⟩, ⟨[0, 1, 2]⟩, 1, 0⟩
      (1 / 2) 7 11 (by decide)

theorem getD_set_self_of_lt (l : Clustering) (j : Nat) (v : Option Nat)
    (h : j < l.length) : (l.set j v).getD j none = v := by
  rw [List.getD_eq_getElem?_getD, List.getElem?_set_self h, Option.getD_some]

theorem getD_set_of_ne (l : Clustering) (i j : Nat) (v : Option Nat)
    (h : i ≠ j) : (l.set i v).getD j none = l.getD j none := by
  rw [List.getD_eq_getElem?_getD, List.getElem?_set_ne h, ← List.getD_eq_getElem?_getD]

/-- Each allocation step is one `set` of item `π(i)` to some label. -/
theorem sampleStep_eq_set (p : EpaParameters) (d2v : ℚ) (c : Clustering)
    (i : Nat) (u : ℚ) :
    ∃ L, sampleStep p d2v c i u = c.set (p.permutation.get i) (some L) :=
  ⟨_, rfl⟩

theorem sampleStep_length (p : EpaParameters) (d2v : ℚ) (c : Clustering)
    (i : Nat) (u : ℚ) : (sampleStep p d2v c i u).length = c.length := by
  obtain ⟨L, hL⟩ := sampleStep_eq_set p d2v c i u
  rw [hL, List.length_set]

theorem sampleStep_allocated_mono (p : EpaParameters) (d2v : ℚ) (c : Clustering)
    (i : Nat) (u : ℚ) (j : Nat) (L : Nat) (hj : c.getD j none = some L) :
    ∃ L', (sampleStep p d2v c i u).getD j none = some L' := by
  obtain ⟨K, hK⟩ := sampleStep_eq_set p d2v c i u
  rw [hK]
  by_cases hmj : p.permutation.get i = j
  · subst hmj
    by_cases hlen : p.permutation.get i < c.length
    · exact ⟨K, getD_set_self_of_lt c _ _ hlen⟩
    · rw [List.set_eq_of_length_le (by omega)]
      exact ⟨L, hj⟩
  · rw [getD_set_of_ne c _ _ _ hmj]
    exact ⟨L, hj⟩

theorem sampleUpTo_succ (p : EpaParameters) (rng : Nat → ℚ) (i : Nat) :
    sampleUpTo p rng (i + 1) =
      sampleStep p (d2 p) (sampleUpTo p rng i) i (rng i) := by
  rw [sampleUpTo, sampleUpTo, List.range_succ, List.foldl_append,
    List.foldl_cons, List.foldl_nil]

theorem sampleUpTo_length (p : EpaParameters) (rng : Nat → ℚ) :
    ∀ i, (sampleUpTo p rng i).length = p.similarity.n_items := by
  intro i
  induction i with
  | zero => simp [sampleUpTo, Clustering.unallocated]
  | succ i ih => rw [sampleUpTo_succ, sampleStep_length, ih]

theorem permutation_get_lt (p : Permutation) (n : Nat) (hv : p.valid n)
    (m : Nat) (hm : m < n) : p.get m < n := by
  have hlen : p.items.length = n := by
    rw [hv.length_eq, List.length_range]
  have hmem : p.items.getD m 0 ∈ p.items := by
    rw [List.getD_eq_getElem?_getD, List.getElem?_eq_getElem (by omega), Option.getD_some]
    exact List.getElem_mem _
  have := hv.mem_iff.mp hmem
  exact List.mem_range.mp this

theorem sampleUpTo_allocated (p : EpaParameters) (rng : Nat → ℚ)
    (hv : p.permutation.valid p.similarity.n_items) :
    ∀ i, i ≤ p.similarity.n_items →
      ∀ m < i, ∃ L, (sampleUpTo p rng i).getD (p.permutation.get m) none = some L := by
  intro i
  induction i with
  | zero => intro _ m hm; omega
  | succ i ih =>
    intro hi m hm
    rw [sampleUpTo_succ]
    by_cases hmi : m < i
    · obtain ⟨L, hL⟩ := ih (by omega) m hmi
      exact sampleStep_allocated_mono p (d2 p) _ i (rng i) _ L hL
    · have hmi' : m = i := by omega
      subst hmi'
      obtain ⟨K, hK⟩ := sampleStep_eq_set p (d2 p) (sampleUpTo p rng m) m (rng m)
      rw [hK]
      refine ⟨K, getD_set_self_of_lt _ _ _ ?_⟩
      rw [sampleUpTo_length]
      exact permutation_get_lt p.permutation _ hv m (by omega)

theorem mem_items_of (c : Clustering) (L j : Nat) :
    j ∈ c.items_of L ↔ j < c.length ∧ c.getD j none = some L := by
  rw [Clustering.items_of, List.mem_filter, List.mem_range]
  simp only [beq_iff_eq]

theorem n_clusters_pos_of_allocated (c : Clustering) (j L : Nat)
    (hj : j < c.length) (hL : c.getD j none = some L) : 1 ≤ c.n_clusters := by
  have hmem : (some L) ∈ c := by
    rw [List.getD_eq_getElem?_getD, List.getElem?_eq_getElem hj, Option.getD_some] at hL
    rw [← hL]
    exact List.getElem_mem _
  have hfm : L ∈ c.filterMap id := List.mem_filterMap.mpr ⟨some L, hmem, rfl⟩
  have hdd : L ∈ (c.filterMap id).dedup := List.mem_dedup.mpr hfm
  rw [Clustering.n_clusters]
  exact List.length_pos.mpr (List.ne_nil_of_mem hdd)

/-- C3: for every valid EPA parameter set (matching sizes, `n ≥ 1`, a
bijective permutation) and every randomness stream, `sample` returns a
partition over the `n` items in which every item index belongs to the
member list of exactly one cluster label, and which has at least one
cluster. -/
theorem sample_partition_complete (p : EpaParameters) (rng : Nat → ℚ)
    (hn : 0 < p.similarity.n_items)
    (hv : p.permutation.valid p.similarity.n_items) :
    (sample p rng).length = p.similarity.n_items ∧
    (∀ j < p.similarity.n_items,
      ∃ L, ∀ L', (j ∈ (sample p rng).items_of L' ↔ L' = L)) ∧
    1 ≤ (sample p rng).n_clusters := by
  have hlen : (sample p rng).length = p.similarity.n_items :=
    sampleUpTo_length p rng _
  have hitems : p.permutation.items.length = p.similarity.n_items := by
    rw [hv.length_eq, List.length_range]
  have halloc : ∀ j < p.similarity.n_items,
      ∃ L, (sample p rng).getD j none = some L := by
    intro j hj
    have hmem : j ∈ p.permutation.items := by
      rw [hv.mem_iff]
      exact List.mem_range.mpr hj
    obtain ⟨m, hm, hget⟩ := List.getElem_of_mem hmem
    have hπ : p.permutation.get m = j := by
      rw [Permutation.get, List.getD_eq_getElem?_getD,
        List.getElem?_eq_getElem hm, Option.getD_some, hget]
    have := sampleUpTo_allocated p rng hv p.similarity.n_items le_rfl m
      (by omega)
    rw [hπ] at this
    exact this
  refine ⟨hlen, ?_, ?_⟩
  · intro j hj
    obtain ⟨L, hL⟩ := halloc j hj
    refine ⟨L, fun L' => ?_⟩
    rw [mem_items_of, hlen]
    constructor
    · rintro ⟨-, hL'⟩
      rw [hL] at hL'
      exact (Option.some_inj.mp hL').symm
    · rintro rfl
      exact ⟨hj, hL⟩
  · obtain ⟨L, hL⟩ := halloc (p.permutation.get 0) (permutation_get_lt _ _ hv 0 hn)
    exact n_clusters_pos_of_allocated _ _ L
      (by rw [hlen]; exact permutation_get_lt _ _ hv 0 hn) hL

/-- Witness for `sample_partition_complete` at a concrete parameter set
and stream. -/
theorem sample_partition_complete_witness :
    0 < (⟨⟨List.replicate 9 1, 3⟩, ⟨[2, 0, 1]⟩, 1, 0⟩ :
        EpaParameters).similarity.n_items ∧
    (⟨[2, 0, 1]⟩ : Permutation).valid 3 ∧
    ((sample ⟨⟨List.replicate 9 1, 3⟩, ⟨[2, 0, 1]⟩, 1, 0⟩ (fun t => 1 / (t + 2))).length = 3 ∧
      (∀ j < 3, ∃ L, ∀ L',
        (j ∈ (sample ⟨⟨List.replicate 9 1, 3⟩, ⟨[2, 0, 1]⟩, 1, 0⟩
            (fun t => 1 / (t + 2))).items_of L' ↔ L' = L)) ∧
      1 ≤ (sample ⟨⟨List.replicate 9 1, 3⟩, ⟨[2, 0, 1]⟩, 1, 0⟩
          (fun t => 1 / (t + 2))).n_clusters) :=
  ⟨by decide, by decide,
    sample_partition_complete ⟨⟨List.replicate 9 1, 3⟩, ⟨[2, 0, 1]⟩, 1, 0⟩
      (fun t => 1 / (t + 2)) (by decide) (by decide)⟩

/-- C9: for `n = 1` (any similarity values, mass, discount, and any
randomness stream), `sample` returns the partition with exactly one
cluster containing the single item. -/
theorem sample_single_item (p : EpaParameters) (rng : Nat → ℚ)
    (hn : p.similarity.n_items = 1) (hv : p.permutation.valid 1) :
    sample p rng = [some 0] ∧ (sample p rng).n_clusters = 1 ∧
    (sample p rng).items_of 0 = [0] := by
  have hitems : p.permutation.items = [0] := by
    rw [Permutation.valid, show List.range 1 = [0] from rfl] at hv
    exact List.perm_singleton.mp hv
  have hs : sample p rng = [some 0] := by
    rw [sample, hn]
    rw [show (1 : Nat) = 0 + 1 from rfl, sampleUpTo_succ]
    have h0 : sampleUpTo p rng 0 = Clustering.unallocated p.similarity.n_items := by
      rw [sampleUpTo]
      rfl
    rw [h0, hn]
    rw [sampleStep, sampleStepKt]
    simp only [available_labels_unallocated, List.map_cons, List.map_nil,
      stepWeight, size_of_unallocated, eq_self_iff_true, if_true]
    rw [Clustering.allocate, available_labels_unallocated, selectWeighted, selectLoop]
    simp only [eq_self_iff_true, if_true, List.getD_cons_zero]
    rw [Permutation.get, hitems]
    rfl
  refine ⟨hs, ?_, ?_⟩
  · rw [hs]
    decide
  · rw [hs]
    decide

/-- Witness for `sample_single_item` at a concrete 1×1 similarity,
mass, discount and stream. -/
theorem sample_single_item_witness :
    (⟨⟨[5], 1⟩, ⟨[0]⟩, 2, 3⟩ : EpaParameters).similarity.n_items = 1 ∧
    (⟨[0]⟩ : Permutation).valid 1 ∧
    (sample ⟨⟨[5], 1⟩, ⟨[0]⟩, 2, 3⟩ (fun _ => 1 / 2) = [some 0] ∧
      (sample ⟨⟨[5], 1⟩, ⟨[0]⟩, 2, 3⟩ (fun _ => 1 / 2)).n_clusters = 1 ∧
      (sample ⟨⟨[5], 1⟩, ⟨[0]⟩, 2, 3⟩ (fun _ => 1 / 2)).items_of 0 = [0]) :=
  ⟨by decide, by decide,
    sample_single_item ⟨⟨[5], 1⟩, ⟨[0]⟩, 2, 3⟩ (fun _ => 1 / 2) (by decide) (by decide)⟩

/-- C6: two calls to `sample` with identical parameters (same similarity
storage and size, same permutation, mass and discount) and randomness
sources producing the identical sequence of draws yield identical
partitions. -/
theorem sample_deterministic (p₁ p₂ : EpaParameters) (r₁ r₂ : Nat → ℚ)
    (hdata : p₁.similarity.data = p₂.similarity.data)
    (hni : p₁.similarity.n_items = p₂.similarity.n_items)
    (hperm : p₁.permutation.items = p₂.permutation.items)
    (hmass : p₁.mass = p₂.mass) (hdisc : p₁.discount = p₂.discount)
    (hr : ∀ t, r₁ t = r₂ t) :
    sample p₁ r₁ = sample p₂ r₂ := by
  obtain ⟨⟨dat₁, n₁⟩, ⟨itm₁⟩, m₁, q₁⟩ := p₁
  obtain ⟨⟨dat₂, n₂⟩, ⟨itm₂⟩, m₂, q₂⟩ := p₂
  simp only at hdata hni hperm hmass hdisc
  subst hdata hni hperm hmass hdisc
  have : r₁ = r₂ := funext hr
  subst this
  rfl

/-- Witness for `sample_deterministic` at a concrete parameter set and
stream. -/
theorem sample_deterministic_witness :
    sample ⟨⟨List.replicate 9 1, 3⟩, ⟨[0, 1, 2]⟩, 1, 0⟩ (fun t => 1 / (t + 2)) =
      sample ⟨⟨List.replicate 9 1, 3⟩, ⟨[0, 1, 2]⟩, 1, 0⟩ (fun t => 1 / (t + 2)) :=
  sample_deterministic ⟨⟨List.replicate 9 1, 3⟩, ⟨[0, 1, 2]⟩, 1, 0⟩
    ⟨⟨List.replicate 9 1, 3⟩, ⟨[0, 1, 2]⟩, 1, 0⟩ (fun t => 1 / (t + 2))
    (fun t => 1 / (t + 2)) rfl rfl rfl rfl rfl (fun _ => rfl)

/-- `Vec::swap_remove(k)` as used by the permutation strategies in
`epa.rs`: return the element at position `k`, replacing it by the last
element and shortening the list by one. -/
def swapRemoveGet (l : List Nat) (k : Nat) : Nat × List Nat :=
  (l.getD k 0, (l.set k (l.getD (l.length - 1) 0)).dropLast)

theorem getD_last_cons_dropLast_perm (l : List Nat) (h : l ≠ []) :
    ((l.getD (l.length - 1) 0) :: l.dropLast).Perm l := by
  obtain rfl | ⟨l', a, rfl⟩ := l.eq_nil_or_concat
  · exact absurd rfl h
  · rw [List.concat_eq_append]
    have hlen : (l' ++ [a]).length - 1 = l'.length := by simp
    have hget : (l' ++ [a]).getD l'.length 0 = a := by
      rw [List.getD_eq_getElem?_getD, List.getElem?_append_right le_rfl]
      simp
    rw [hlen, hget, List.dropLast_concat]
    exact (List.perm_append_singleton a l').symm

theorem swapRemove_perm :
    ∀ (l : List Nat) (k : Nat), k < l.length →
      ((swapRemoveGet l k).1 :: (swapRemoveGet l k).2).Perm l := by
  intro l
  induction l with
  | nil => intro k hk; simp at hk
  | cons a t ih =>
    intro k hk
    rcases t with _ | ⟨b, t'⟩
    · have hk0 : k = 0 := by
        simp only [List.length_cons, List.length_nil] at hk
        omega
      subst hk0
      rw [swapRemoveGet]
      simp
    · rcases k with _ | k'
      · rw [swapRemoveGet]
        simp only [List.getD_cons_zero, List.length_cons, Nat.add_sub_cancel,
          List.getD_cons_succ, List.set_cons_zero, List.dropLast_cons₂]
        refine List.Perm.cons a ?_
        have := getD_last_cons_dropLast_perm (b :: t') (by simp)
        simpa using this
      · have hk' : k' < (b :: t').length := by
          simpa using hk
        rw [swapRemoveGet]
        simp only [List.getD_cons_succ, List.length_cons, Nat.add_sub_cancel,
          List.set_cons_succ]
        have hne : (b :: t').set k' ((b :: t').getD t'.length 0) ≠ [] := by
          apply List.ne_nil_of_length_pos
          simp
        rw [List.dropLast_cons_of_ne_nil hne]
        refine List.Perm.trans (List.Perm.swap a ((b :: t').getD k' 0) _) ?_
        refine List.Perm.cons a ?_
        have := ih k' hk'
        rw [swapRemoveGet] at this
        simpa using this

/-- The common shape of the strategy loops in `shuffle_permutation` of
`epa.rs`: while the working set `available` is nonempty, choose a
position (by the strategy's rule, fed with the draw counter and the
current item), `swap_remove` it, and append the removed item. -/
def drainLoop (choose : Nat → Nat → List Nat → Nat) (t current : Nat)
    (acc available : List Nat) : List Nat :=
  if h : available = [] then acc
  else
    let k := choose t current available
    let v := (swapRemoveGet available k).1
    let rest := (swapRemoveGet available k).2
    drainLoop choose (t + 1) v (acc ++ [v]) rest
termination_by available.length
decreasing_by
  rw [swapRemoveGet]
  simp only [List.length_dropLast, List.length_set]
  rcases available with _ | ⟨x, xs⟩
  · exact absurd rfl h
  · simp

theorem drainLoop_perm (choose : Nat → Nat → List Nat → Nat)
    (hch : ∀ t cur l, l ≠ [] → choose t cur l < l.length) :
    ∀ (m : Nat) (available : List Nat), available.length ≤ m →
      ∀ (t current : Nat) (acc : List Nat),
        (drainLoop choose t current acc available).Perm (acc ++ available) := by
  intro m
  induction m with
  | zero =>
    intro available hav t current acc
    have : available = [] := List.length_eq_zero.mp (by omega)
    subst this
    rw [drainLoop]
    simp
  | succ m ih =>
    intro available hav t current acc
    rw [drainLoop]
    split
    · rename_i h
      subst h
      simp
    · rename_i h
      have hk : choose t current available < available.length := hch t current available h
      have hlen : (swapRemoveGet available (choose t current available)).2.length ≤ m := by
        rw [swapRemoveGet]
        simp only [List.length_dropLast, List.length_set]
        have : 0 < available.length := List.length_pos.mpr h
        omega
      refine List.Perm.trans (ih _ hlen _ _ _) ?_
      rw [List.append_assoc]
      refine List.Perm.append_left acc ?_
      rw [List.singleton_append]
      exact swapRemove_perm available (choose t current available) hk

/-- The inner scan of the `nearest` strategy in `epa.rs`: walk the
working set keeping the first strictly-largest candidate value seen so
far (the initial best value `f64::NEG_INFINITY` is modelled by `none`,
which any candidate beats). -/
def argmaxLoop (f : Nat → ℚ) : Option ℚ → Nat → Nat → List Nat → Nat
  | _, bestIdx, _, [] => bestIdx
  | none, _, k, i :: rest => argmaxLoop f (some (f i)) k (k + 1) rest
  | some bv, bestIdx, k, i :: rest =>
    if f i > bv then argmaxLoop f (some (f i)) k (k + 1) rest
    else argmaxLoop f bv bestIdx (k + 1) rest

/-- Position of the first strictly-highest value of `f` over the working
set, as computed by the `for (k, i) in available.iter().enumerate()`
loop of the `nearest` strategy. -/
def argmaxFirst (f : Nat → ℚ) (l : List Nat) : Nat :=
  argmaxLoop f none 0 0 l

theorem argmaxLoop_spec (f : Nat → ℚ) :
    ∀ (l : List Nat) (bv : ℚ) (bi k : Nat),
      (argmaxLoop f (some bv) bi k l = bi ∧ ∀ j < l.length, f (l.getD j 0) ≤ bv) ∨
      (∃ j, j < l.length ∧ argmaxLoop f (some bv) bi k l = k + j ∧
        bv < f (l.getD j 0) ∧
        (∀ j' < l.length, f (l.getD j' 0) ≤ f (l.getD j 0)) ∧
        (∀ j' < j, f (l.getD j' 0) < f (l.getD j 0))) := by
  intro l
  induction l with
  | nil =>
    intro bv bi k
    left
    refine ⟨rfl, fun j hj => ?_⟩
    simp at hj
  | cons i rest ih =>
    intro bv bi k
    by_cases hfi : f i > bv
    · rw [show argmaxLoop f (some bv) bi k (i :: rest) =
          argmaxLoop f (some (f i)) k (k + 1) rest by rw [argmaxLoop, if_pos hfi]]
      rcases ih (f i) k (k + 1) with ⟨heq, hle⟩ | ⟨j, hj, heq, hlt, hmax, hfirst⟩
      · right
        refine ⟨0, by simp, by rw [heq, Nat.add_zero], by simpa using hfi, ?_, ?_⟩
        · intro j' hj'
          rcases j' with _ | j'
          · simp
          · simp only [List.getD_cons_succ, List.getD_cons_zero]
            exact hle j' (by simpa using hj')
        · intro j' hj'
          omega
      · right
        refine ⟨j + 1, by simpa using hj, by rw [heq]; omega, ?_, ?_, ?_⟩
        · simp only [List.getD_cons_succ]
          exact lt_trans hfi hlt
        · intro j' hj'
          rcases j' with _ | j'
          · simp only [List.getD_cons_zero, List.getD_cons_succ]
            exact le_of_lt hlt
          · simp only [List.getD_cons_succ]
            exact hmax j' (by simpa using hj')
        · intro j' hj'
          rcases j' with _ | j'
          · simp only [List.getD_cons_zero, List.getD_cons_succ]
            exact hlt
          · simp only [List.getD_cons_succ]
            exact hfirst j' (by omega)
    · rw [show argmaxLoop f (some bv) bi k (i :: rest) =
          argmaxLoop f (some bv) bi (k + 1) rest by rw [argmaxLoop, if_neg hfi]]
      rcases ih bv bi (k + 1) with ⟨heq, hle⟩ | ⟨j, hj, heq, hlt, hmax, hfirst⟩
      · left
        refine ⟨heq, fun j' hj' => ?_⟩
        rcases j' with _ | j'
        · simpa using le_of_not_lt hfi
        · simp only [List.getD_cons_succ]
          exact hle j' (by simpa using hj')
      · right
        refine ⟨j + 1, by simpa using hj, by rw [heq]; omega, ?_, ?_, ?_⟩
        · simp only [List.getD_cons_succ]
          exact hlt
        · intro j' hj'
          rcases j' with _ | j'
          · simp only [List.getD_cons_zero, List.getD_cons_succ]
            exact le_trans (le_of_not_lt hfi) (le_of_lt hlt)
          · simp only [List.getD_cons_succ]
            exact hmax j' (by simpa using hj')
        · intro j' hj'
          rcases j' with _ | j'
          · simp only [List.getD_cons_zero, List.getD_cons_succ]
            exact lt_of_le_of_lt (le_of_not_lt hfi) hlt
          · simp only [List.getD_cons_succ]
            exact hfirst j' (by omega)

theorem argmaxFirst_spec (f : Nat → ℚ) (l : List Nat) (h : l ≠ []) :
    argmaxFirst f l < l.length ∧
    (∀ j < l.length, f (l.getD j 0) ≤ f (l.getD (argmaxFirst f l) 0)) ∧
    (∀ j < argmaxFirst f l, f (l.getD j 0) < f (l.getD (argmaxFirst f l) 0)) := by
  obtain ⟨i, rest, rfl⟩ := List.exists_cons_of_ne_nil h
  rw [argmaxFirst, show argmaxLoop f none 0 0 (i :: rest) =
      argmaxLoop f (some (f i)) 0 1 rest by rw [argmaxLoop]]
  rcases argmaxLoop_spec f rest (f i) 0 1 with ⟨heq, hle⟩ | ⟨j, hj, heq, hlt, hmax, hfirst⟩
  · rw [heq]
    refine ⟨by simp, ?_, ?_⟩
    · intro j' hj'
      rcases j' with _ | j'
      · simp
      · simp only [List.getD_cons_succ, List.getD_cons_zero]
        exact hle j' (by simpa using hj')
    · intro j' hj'
      omega
  · rw [heq]
    have h1j : 1 + j = j + 1 := by omega
    rw [h1j]
    refine ⟨by simpa using hj, ?_, ?_⟩
    · intro j' hj'
      rcases j' with _ | j'
      · simp only [List.getD_cons_zero, List.getD_cons_succ]
        exact le_of_lt hlt
      · simp only [List.getD_cons_succ]
        exact hmax j' (by simpa using hj')
    · intro j' hj'
      rcases j' with _ | j'
      · simp only [List.getD_cons_zero, List.getD_cons_succ]
        exact hlt
      · simp only [List.getD_cons_succ]
        exact hfirst j' (by omega)

theorem selectLoop_lt (target : ℚ) :
    ∀ (ws : List ℚ) (acc : ℚ) (k : Nat), ws ≠ [] →
      selectLoop target acc k ws < k + ws.length := by
  intro ws
  induction ws with
  | nil => intro acc k h; exact absurd rfl h
  | cons w rest ih =>
    intro acc k h
    rw [selectLoop]
    by_cases h1 : rest = []
    · rw [if_pos h1]
      simp
    · rw [if_neg h1]
      by_cases h2 : target < acc + w
      · rw [if_pos h2]
        simp
      · rw [if_neg h2]
        have := ih (acc + w) (k + 1) h1
        simp only [List.length_cons]
        omega

theorem selectWeighted_lt (ws : List ℚ) (u : ℚ) (h : ws ≠ []) :
    selectWeighted ws u < ws.length := by
  have := selectLoop_lt (u * ws.foldl (· + ·) 0) ws 0 0 h
  rw [selectWeighted]
  omega

/-- Modelled from the spec: `Permutation::shuffle` (crate `perm`): a
uniformly random permutation built by repeatedly drawing one of the
remaining entries and `swap_remove`-ing it (a Fisher–Yates-equivalent
draw-and-remove scheme), consuming one integer draw per step. -/
def shuffleList (s : Nat → Nat) (l : List Nat) : List Nat :=
  drainLoop (fun t _ avail => s t % avail.length) 0 0 [] l

/-- Modelled from the spec: `Permutation::shuffle` on the wrapped
ordering. -/
def Permutation.shuffle (p : Permutation) (s : Nat → Nat) : Permutation :=
  ⟨shuffleList s p.items⟩

/-- The `nearest` strategy of `shuffle_permutation` in `epa.rs`: draw a
uniformly random starting item (`s 0` reduced into the working-set
range), then repeatedly `swap_remove` and append the remaining item with
the highest similarity to the current item (first-encountered index on
ties). -/
def nearestPerm (sim : SquareMatrixBorrower) (n : Nat) (s : Nat → Nat) : List Nat :=
  let available := List.range n
  let start := s 0 % available.length
  drainLoop (fun _ current avail => argmaxFirst (fun i => sim.get current i) avail)
    1 (swapRemoveGet available start).1 [(swapRemoveGet available start).1]
    (swapRemoveGet available start).2

/-- The `randomnearest` strategy of `shuffle_permutation` in `epa.rs`:
like `nearest`, but each next item is drawn by weighted random selection
with the similarities to the current item as weights, consuming one
uniform draw of `q` per step. -/
def randomNearestPerm (sim : SquareMatrixBorrower) (n : Nat) (s : Nat → Nat)
    (q : Nat → ℚ) : List Nat :=
  let available := List.range n
  let start := s 0 % available.length
  drainLoop (fun t current avail =>
      selectWeighted (avail.map (fun i => sim.get current i)) (q t))
    1 (swapRemoveGet available start).1 [(swapRemoveGet available start).1]
    (swapRemoveGet available start).2

/-- The recognized permutation strategies (the environment-variable
dispatch of `shuffle_permutation` in `epa.rs`, with the default arm
folded into the uniform shuffle it selects). -/
inductive PermutationStrategy
  | uniformShuffle
  | nearest
  | randomNearest

/-- `shuffle_permutation` of `epa.rs`: replace the parameters'
permutation according to the selected strategy. -/
def EpaParameters.shuffle_permutation (p : EpaParameters)
    (strategy : PermutationStrategy) (s : Nat → Nat) (q : Nat → ℚ) :
    EpaParameters :=
  match strategy with
  | .uniformShuffle => { p with permutation := p.permutation.shuffle s }
  | .nearest =>
    { p with permutation := ⟨nearestPerm p.similarity p.permutation.n_items s⟩ }
  | .randomNearest =>
    { p with permutation :=
        ⟨randomNearestPerm p.similarity p.permutation.n_items s q⟩ }

theorem drainLoop_perm_all (choose : Nat → Nat → List Nat → Nat)
    (hch : ∀ t cur l, l ≠ [] → choose t cur l < l.length)
    (available : List Nat) (t current : Nat) (acc : List Nat) :
    (drainLoop choose t current acc available).Perm (acc ++ available) :=
  drainLoop_perm choose hch available.length available le_rfl t current acc

/-- C5: for every `n ≥ 1` and all randomness streams, each of the three
permutation construction strategies — uniform shuffle, `nearest`,
`random-nearest` — yields a sequence of length `n` containing each index
of `[0, n)` exactly once (a permutation of `range n`), and leaves the
parameters' `n_items` unchanged. -/
theorem shuffle_permutation_bijection (p : EpaParameters)
    (strategy : PermutationStrategy) (s : Nat → Nat) (q : Nat → ℚ)
    (hn : 0 < p.permutation.n_items)
    (hv : p.permutation.valid p.permutation.n_items) :
    (p.shuffle_permutation strategy s q).permutation.valid p.permutation.n_items ∧
    (p.shuffle_permutation strategy s q).permutation.n_items =
      p.permutation.n_items := by
  have key : (p.shuffle_permutation strategy s q).permutation.valid
      p.permutation.n_items := by
    cases strategy with
    | uniformShuffle =>
      show (shuffleList s p.permutation.items).Perm (List.range p.permutation.n_items)
      refine List.Perm.trans ?_ hv
      rw [shuffleList]
      have := drainLoop_perm_all (fun t _ avail => s t % avail.length)
        (fun t cur l hl => Nat.mod_lt _ (List.length_pos.mpr hl))
        p.permutation.items 0 0 []
      simpa using this
    | nearest =>
      show (nearestPerm p.similarity p.permutation.n_items s).Perm
        (List.range p.permutation.n_items)
      rw [nearestPerm]
      have hstart : s 0 % (List.range p.permutation.n_items).length <
          (List.range p.permutation.n_items).length := by
        apply Nat.mod_lt
        simpa using hn
      have hsw := swapRemove_perm (List.range p.permutation.n_items)
        (s 0 % (List.range p.permutation.n_items).length) hstart
      have hdrain := drainLoop_perm_all
        (fun _ current avail => argmaxFirst (fun i => p.similarity.get current i) avail)
        (fun t cur l hl => (argmaxFirst_spec _ l hl).1)
        (swapRemoveGet (List.range p.permutation.n_items)
          (s 0 % (List.range p.permutation.n_items).length)).2
        1
        (swapRemoveGet (List.range p.permutation.n_items)
          (s 0 % (List.range p.permutation.n_items).length)).1
        [(swapRemoveGet (List.range p.permutation.n_items)
          (s 0 % (List.range p.permutation.n_items).length)).1]
      refine List.Perm.trans hdrain ?_
      rw [List.singleton_append]
      exact hsw
    | randomNearest =>
      show (randomNearestPerm p.similarity p.permutation.n_items s q).Perm
        (List.range p.permutation.n_items)
      rw [randomNearestPerm]
      have hstart : s 0 % (List.range p.permutation.n_items).length <
          (List.range p.permutation.n_items).length := by
        apply Nat.mod_lt
        simpa using hn
      have hsw := swapRemove_perm (List.range p.permutation.n_items)
        (s 0 % (List.range p.permutation.n_items).length) hstart
      have hdrain := drainLoop_perm_all
        (fun t current avail =>
          selectWeighted (avail.map (fun i => p.similarity.get current i)) (q t))
        (fun t cur l hl => by
          have hmap : l.map (fun i => p.similarity.get cur i) ≠ [] := by
            simpa using hl
          have := selectWeighted_lt (l.map (fun i => p.similarity.get cur i)) (q t) hmap
          simpa using this)
        (swapRemoveGet (List.range p.permutation.n_items)
          (s 0 % (List.range p.permutation.n_items).length)).2
        1
        (swapRemoveGet (List.range p.permutation.n_items)
          (s 0 % (List.range p.permutation.n_items).length)).1
        [(swapRemoveGet (List.range p.permutation.n_items)
          (s 0 % (List.range p.permutation.n_items).length)).1]
      refine List.Perm.trans hdrain ?_
      rw [List.singleton_append]
      exact hsw
  refine ⟨key, ?_⟩
  rw [Permutation.n_items, key.length_eq, List.length_range]

/-- Witness for `shuffle_permutation_bijection` at a concrete parameter
set, the `nearest` strategy and concrete streams. -/
theorem shuffle_permutation_bijection_witness :
    0 < (⟨⟨List.replicate 9 1, 3⟩, ⟨[2, 0, 1]⟩, 1, 0⟩ :
        EpaParameters).permutation.n_items ∧
    (⟨[2, 0, 1]⟩ : Permutation).valid 3 ∧
    ((EpaParameters.shuffle_permutation ⟨⟨List.replicate 9 1, 3⟩, ⟨[2, 0, 1]⟩, 1, 0⟩
        PermutationStrategy.nearest (fun t => t + 1)
        (fun t => 1 / (t + 2))).permutation.valid 3 ∧
      (EpaParameters.shuffle_permutation ⟨⟨List.replicate 9 1, 3⟩, ⟨[2, 0, 1]⟩, 1, 0⟩
        PermutationStrategy.nearest (fun t => t + 1)
        (fun t => 1 / (t + 2))).permutation.n_items = 3) :=
  ⟨by decide, by decide,
    shuffle_permutation_bijection ⟨⟨List.replicate 9 1, 3⟩, ⟨[2, 0, 1]⟩, 1, 0⟩
      PermutationStrategy.nearest (fun t => t + 1) (fun t => 1 / (t + 2))
      (by decide) (by decide)⟩

/-- C7: the `nearest` strategy draws only the starting item at random
(two streams agreeing on the first draw give identical permutations),
and its greedy step selects from the residual working set a position
carrying the maximal similarity to the current item such that every
earlier-encountered candidate is strictly smaller (first-encountered
tie-break). -/
theorem nearest_greedy_spec :
    (∀ (sim : SquareMatrixBorrower) (n : Nat) (s₁ s₂ : Nat → Nat),
      s₁ 0 = s₂ 0 → nearestPerm sim n s₁ = nearestPerm sim n s₂) ∧
    (∀ (sim : SquareMatrixBorrower) (current : Nat) (avail : List Nat),
      avail ≠ [] →
        argmaxFirst (fun i => sim.get current i) avail < avail.length ∧
        (∀ j < avail.length,
          sim.get current (avail.getD j 0) ≤
            sim.get current
              (avail.getD (argmaxFirst (fun i => sim.get current i) avail) 0)) ∧
        (∀ j < argmaxFirst (fun i => sim.get current i) avail,
          sim.get current (avail.getD j 0) <
            sim.get current
              (avail.getD (argmaxFirst (fun i => sim.get current i) avail) 0))) := by
  constructor
  · intro sim n s₁ s₂ h
    rw [nearestPerm, nearestPerm, h]
  · intro sim current avail h
    exact argmaxFirst_spec (fun i => sim.get current i) avail h

/-- Witness for `nearest_greedy_spec`: determinism of `nearest` for two
streams sharing the start draw, and the greedy-step properties, at
concrete inputs. -/
theorem nearest_greedy_spec_witness :
    (nearestPerm ⟨List.replicate 9 1, 3⟩ 3 (fun t => t) =
      nearestPerm ⟨List.replicate 9 1, 3⟩ 3 (fun t => if t = 0 then 0 else 99)) ∧
    (argmaxFirst (fun i => SquareMatrixBorrower.get ⟨List.replicate 9 1, 3⟩ 0 i)
        [1, 2] < ([1, 2] : List Nat).length ∧
      (∀ j < ([1, 2] : List Nat).length,
        SquareMatrixBorrower.get ⟨List.replicate 9 1, 3⟩ 0
            (([1, 2] : List Nat).getD j 0) ≤
          SquareMatrixBorrower.get ⟨List.replicate 9 1, 3⟩ 0
            (([1, 2] : List Nat).getD
              (argmaxFirst
                (fun i => SquareMatrixBorrower.get ⟨List.replicate 9 1, 3⟩ 0 i)
                [1, 2]) 0)) ∧
      (∀ j < argmaxFirst
          (fun i => SquareMatrixBorrower.get ⟨List.replicate 9 1, 3⟩ 0 i) [1, 2],
        SquareMatrixBorrower.get ⟨List.replicate 9 1, 3⟩ 0
            (([1, 2] : List Nat).getD j 0) <
          SquareMatrixBorrower.get ⟨List.replicate 9 1, 3⟩ 0
            (([1, 2] : List Nat).getD
              (argmaxFirst
                (fun i => SquareMatrixBorrower.get ⟨List.replicate 9 1, 3⟩ 0 i)
                [1, 2]) 0))) :=
  ⟨nearest_greedy_spec.1 ⟨List.replicate 9 1, 3⟩ 3 (fun t => t)
      (fun t => if t = 0 then 0 else 99) rfl,
    nearest_greedy_spec.2 ⟨List.replicate 9 1, 3⟩ 0 [1, 2] (by decide)⟩

/-- Witness for `matrix_factories_spec` at `n = 2`. -/
theorem matrix_factories_spec_witness :
    1 ≤ 2 ∧
    (((SquareMatrix.identity 2).data.length = 2 * 2 ∧
      ∀ k < 2 * 2, (SquareMatrix.identity 2).data.getD k 0 =
        if (2 + 1) ∣ k then 1 else 0) ∧
    ((SquareMatrix.zeros 2).data.length = 2 * 2 ∧
      ∀ k < 2 * 2, (SquareMatrix.zeros 2).data.getD k 0 = 0) ∧
    ((SquareMatrix.ones 2).data.length = 2 * 2 ∧
      ∀ k < 2 * 2, (SquareMatrix.ones 2).data.getD k 0 = 1)) :=
  ⟨by decide, matrix_factories_spec 2 (by decide)⟩

end Epa
